import Mathlib

/-!
Verification of the schoolmap batch-scraping pipeline (danxvv/schoolmap).

Shallow embedding of the Python sources:
* `example_usage.py` — retry/backoff wrapper, progress handling, incremental persistence,
  batch loop (`RateLimitedScraper.scrape_with_retry`, `load_progress`,
  `save_result_incrementally`, `save_failed_code`, `read_ct_codes_from_file`);
* `scraper_utils.py` — `merge_results`;
* `streamlit_app.py` — `load_coordinates_data` line parsing.

Python floats are modelled as rationals; `random.uniform` calls become oracle
functions constrained by hypotheses; files become strings or lists of lines.
-/

/-- Mirrors the `ScraperConfig` dataclass in example_usage.py. -/
structure ScraperConfig where
  max_concurrent_requests : Nat
  batch_delay_min : ℚ
  batch_delay_max : ℚ
  retry_max_attempts : Nat
  retry_base_delay : ℚ
  retry_max_delay : ℚ
  request_jitter_min : ℚ
  request_jitter_max : ℚ
deriving DecidableEq

/-- The default field values of `ScraperConfig`. -/
def defaultConfig : ScraperConfig :=
  ⟨3, 1, 2, 3, 1, 60, 1/10, 1/2⟩

/-- Mirrors the `SchoolData` dataclass in scraper.py. -/
structure SchoolData where
  text : Option String
  href : Option String
  title : Option String
  ct_code : Option String
  success : Bool
  error_message : Option String
deriving DecidableEq

/-- Mirrors the `ScrapeResult` dataclass in example_usage.py
(the wall-clock `timestamp` field is omitted). -/
structure ScrapeResult where
  school_data : Option SchoolData
  ct_code : String
  attempts : Nat
  last_error : Option String
deriving DecidableEq

/-- Outcome of one `scraper.scrape_school_data` attempt as observed by
`scrape_with_retry`: a returned `SchoolData` value, a raised
`asyncio.TimeoutError`, or any other raised exception. -/
inductive AttemptOutcome where
  | val : SchoolData → AttemptOutcome
  | timeoutExn : String → AttemptOutcome
  | exn : String → AttemptOutcome
deriving DecidableEq

/-- Whether the attempt outcome takes the `school_data.success` branch. -/
def isSuccessOutcome : AttemptOutcome → Bool
  | AttemptOutcome.val sd => sd.success
  | AttemptOutcome.timeoutExn _ => false
  | AttemptOutcome.exn _ => false

/-- The `SchoolData` carried by a returned-value outcome. -/
def outData : AttemptOutcome → Option SchoolData
  | AttemptOutcome.val sd => some sd
  | AttemptOutcome.timeoutExn _ => none
  | AttemptOutcome.exn _ => none

/-- The error recorded in `result.last_error` for a non-success outcome:
`school_data.error_message`, `"Timeout: " + str(e)`, or `str(e)`. -/
def errOf : AttemptOutcome → Option String
  | AttemptOutcome.val sd => sd.error_message
  | AttemptOutcome.timeoutExn m => some ("Timeout: " ++ m)
  | AttemptOutcome.exn m => some m

/-- The pre-jitter backoff delay computed at line 108-111 of example_usage.py:
`min(retry_base_delay * 2 ** (attempt - 1), retry_max_delay)`. -/
def backoffDelay (cfg : ScraperConfig) (attempt : Nat) : ℚ :=
  min (cfg.retry_base_delay * (2 : ℚ) ^ (attempt - 1)) cfg.retry_max_delay

/-- The `for attempt in range(1, retry_max_attempts + 1)` loop of
`scrape_with_retry`.  `fuel` counts the remaining attempts, `a` is the current
attempt number, `o` gives each attempt's outcome and `j` the value drawn by
`random.uniform(0, delay * 0.1)` before the sleep after attempt `a`.  Returns
the final `ScrapeResult` together with the list of backoff sleeps performed,
as (attempt number, slept delay) pairs. -/
def runRetryAux (cfg : ScraperConfig) (o : Nat → AttemptOutcome) (j : Nat → ℚ) :
    Nat → Nat → ScrapeResult → ScrapeResult × List (Nat × ℚ)
  | 0, _, res => (res, [])
  | fuel + 1, a, res =>
      if isSuccessOutcome (o a) then
        ({ res with attempts := a, school_data := outData (o a) }, [])
      else
        if a < cfg.retry_max_attempts then
          let k := runRetryAux cfg o j fuel (a + 1)
            { res with attempts := a, last_error := errOf (o a) }
          (k.1, (a, backoffDelay cfg a + j a) :: k.2)
        else ({ res with attempts := a, last_error := errOf (o a) }, [])

/-- Model of `RateLimitedScraper.scrape_with_retry` (example_usage.py lines 69-118). -/
def scrape_with_retry (cfg : ScraperConfig) (o : Nat → AttemptOutcome) (j : Nat → ℚ)
    (ct_code : String) : ScrapeResult × List (Nat × ℚ) :=
  runRetryAux cfg o j cfg.retry_max_attempts 1 ⟨none, ct_code, 0, none⟩

/-! ### Lemmas about the retry loop -/

theorem runRetryAux_sleeps (cfg : ScraperConfig) (o : Nat → AttemptOutcome) (j : Nat → ℚ) :
    ∀ (fuel a : Nat) (res : ScrapeResult) (p : Nat × ℚ),
      p ∈ (runRetryAux cfg o j fuel a res).2 →
      a ≤ p.1 ∧ p.1 < cfg.retry_max_attempts ∧ p.2 = backoffDelay cfg p.1 + j p.1 := by
  intro fuel
  induction fuel with
  | zero => intro a res p hp; simp [runRetryAux] at hp
  | succ f ih =>
      intro a res p hp
      simp only [runRetryAux] at hp
      cases hs : isSuccessOutcome (o a) with
      | true => simp [hs] at hp
      | false =>
          simp only [hs, Bool.false_eq_true, if_false] at hp
          by_cases hlt : a < cfg.retry_max_attempts
          · simp only [hlt, if_true, List.mem_cons] at hp
            rcases hp with h1 | h2
            · subst h1; exact ⟨Nat.le_refl _, hlt, rfl⟩
            · have := ih (a + 1) _ p h2
              exact ⟨Nat.le_of_succ_le this.1, this.2.1, this.2.2⟩
          · simp [hlt] at hp

theorem runRetryAux_attempts (cfg : ScraperConfig) (o : Nat → AttemptOutcome) (j : Nat → ℚ) :
    ∀ (fuel a : Nat) (res : ScrapeResult), 0 < fuel →
      a + fuel = cfg.retry_max_attempts + 1 →
      a ≤ (runRetryAux cfg o j fuel a res).1.attempts ∧
      (runRetryAux cfg o j fuel a res).1.attempts ≤ cfg.retry_max_attempts := by
  intro fuel
  induction fuel with
  | zero => intro a res h; omega
  | succ f ih =>
      intro a res _ ha
      simp only [runRetryAux]
      cases hs : isSuccessOutcome (o a) with
      | true => simp only [if_true]; exact ⟨Nat.le_refl _, by omega⟩
      | false =>
          simp only [Bool.false_eq_true, if_false]
          by_cases hlt : a < cfg.retry_max_attempts
          · have hf : 0 < f := by omega
            have := ih (a + 1) { res with attempts := a, last_error := errOf (o a) } hf (by omega)
            simp only [hlt, if_true]
            exact ⟨Nat.le_of_succ_le this.1, this.2⟩
          · simp only [hlt, if_false]
            exact ⟨Nat.le_refl _, by omega⟩

theorem runRetryAux_no_success (cfg : ScraperConfig) (o : Nat → AttemptOutcome) (j : Nat → ℚ) :
    ∀ (fuel a : Nat) (res : ScrapeResult),
      (∀ i, a ≤ i → i < a + fuel → isSuccessOutcome (o i) = false) →
      a + fuel = cfg.retry_max_attempts + 1 →
      (runRetryAux cfg o j fuel a res).1.school_data = res.school_data ∧
      (0 < fuel → (runRetryAux cfg o j fuel a res).1.attempts = cfg.retry_max_attempts ∧
        (runRetryAux cfg o j fuel a res).1.last_error = errOf (o cfg.retry_max_attempts)) ∧
      (fuel = 0 → (runRetryAux cfg o j fuel a res).1 = res) := by
  intro fuel
  induction fuel with
  | zero => intro a res _ _; exact ⟨rfl, by omega, fun _ => rfl⟩
  | succ f ih =>
      intro a res hno ha
      have hs : isSuccessOutcome (o a) = false := hno a (Nat.le_refl _) (by omega)
      simp only [runRetryAux, hs, Bool.false_eq_true, if_false]
      by_cases hlt : a < cfg.retry_max_attempts
      · have hf : 0 < f := by omega
        have := ih (a + 1) { res with attempts := a, last_error := errOf (o a) }
          (fun i h1 h2 => hno i (by omega) (by omega)) (by omega)
        simp only [hlt, if_true]
        exact ⟨this.1, fun _ => this.2.1 hf, by omega⟩
      · have haeq : a = cfg.retry_max_attempts := by omega
        simp only [hlt, if_false]
        subst haeq
        exact ⟨trivial, fun _ => ⟨rfl, rfl⟩, fun h => absurd h (by omega)⟩

theorem runRetryAux_success_sound (cfg : ScraperConfig) (o : Nat → AttemptOutcome) (j : Nat → ℚ) :
    ∀ (fuel a : Nat) (res : ScrapeResult) (sd : SchoolData),
      res.school_data = none →
      (runRetryAux cfg o j fuel a res).1.school_data = some sd →
      ∃ i, a ≤ i ∧ i < a + fuel ∧ o i = AttemptOutcome.val sd ∧ sd.success = true ∧
        (∀ m, a ≤ m → m < i → isSuccessOutcome (o m) = false) ∧
        (runRetryAux cfg o j fuel a res).1.attempts = i := by
  intro fuel
  induction fuel with
  | zero =>
      intro a res sd hres hsd
      simp only [runRetryAux] at hsd
      rw [hres] at hsd; cases hsd
  | succ f ih =>
      intro a res sd hres hsd
      simp only [runRetryAux] at hsd ⊢
      cases hs : isSuccessOutcome (o a) with
      | true =>
          simp only [hs, if_true] at hsd ⊢
          cases ho : o a with
          | val sd' =>
              rw [ho] at hsd
              simp only [outData] at hsd
              have hsd' : sd' = sd := by
                simpa using hsd
              subst hsd'
              have hsucc : sd'.success = true := by
                rw [ho] at hs; simpa [isSuccessOutcome] using hs
              exact ⟨a, Nat.le_refl _, by omega, ho, hsucc, fun m h1 h2 => by omega, rfl⟩
          | timeoutExn m => rw [ho] at hs; simp [isSuccessOutcome] at hs
          | exn m => rw [ho] at hs; simp [isSuccessOutcome] at hs
      | false =>
          simp only [hs, Bool.false_eq_true, if_false] at hsd ⊢
          by_cases hlt : a < cfg.retry_max_attempts
          · simp only [hlt, if_true] at hsd ⊢
            obtain ⟨i, h1, h2, h3, h4, h5, h6⟩ :=
              ih (a + 1) { res with attempts := a, last_error := errOf (o a) } sd
                (by simpa using hres) hsd
            refine ⟨i, by omega, by omega, h3, h4, ?_, h6⟩
            intro m hm1 hm2
            rcases Nat.eq_or_lt_of_le hm1 with heq | hgt
            · rw [← heq]; exact hs
            · exact h5 m hgt hm2
          · simp only [hlt, if_false] at hsd
            rw [hres] at hsd; cases hsd

/-- Outcome oracle in which every attempt raises an exception. -/
def allFailOutcomes : Nat → AttemptOutcome := fun _ => AttemptOutcome.exn "boom"

/-- Zero backoff jitter. -/
def zeroJitter : Nat → ℚ := fun _ => 0

/-- Configuration whose backoff cap `retry_max_delay` is reached immediately
(base delay 1, cap 1). -/
def capCfg : ScraperConfig := ⟨3, 1, 2, 3, 1, 1, 1/10, 1/2⟩

/-- Jitter drawing the maximal admissible value after attempt 1 and zero
afterwards. -/
def capJitter : Nat → ℚ := fun a => if a = 1 then 1/10 else 0

/-- C1: in `scrape_with_retry` the attempt counter starts at 1 and never
exceeds `retry_max_attempts`, and every backoff sleep, performed only after a
non-final failed attempt `a`, lasts exactly
`min(retry_base_delay * 2^(a-1), retry_max_delay)` plus the drawn jitter,
which adds at most 10% of that value. -/
theorem retry_backoff_formula (cfg : ScraperConfig) (o : Nat → AttemptOutcome) (j : Nat → ℚ)
    (code : String) (hj : ∀ a, 0 ≤ j a ∧ j a ≤ backoffDelay cfg a / 10) :
    (scrape_with_retry cfg o j code).1.attempts ≤ cfg.retry_max_attempts ∧
    (1 ≤ cfg.retry_max_attempts → 1 ≤ (scrape_with_retry cfg o j code).1.attempts) ∧
    ∀ p ∈ (scrape_with_retry cfg o j code).2,
      1 ≤ p.1 ∧ p.1 < cfg.retry_max_attempts ∧
      p.2 = backoffDelay cfg p.1 + j p.1 ∧
      backoffDelay cfg p.1 ≤ p.2 ∧
      p.2 ≤ backoffDelay cfg p.1 + backoffDelay cfg p.1 / 10 := by
  refine ⟨?_, ?_, ?_⟩
  · rcases Nat.eq_zero_or_pos cfg.retry_max_attempts with h0 | hpos
    · unfold scrape_with_retry
      rw [h0]
      simp [runRetryAux]
    · exact (runRetryAux_attempts cfg o j cfg.retry_max_attempts 1 _ hpos (by omega)).2
  · intro hpos
    exact (runRetryAux_attempts cfg o j cfg.retry_max_attempts 1 _ hpos (by omega)).1
  · intro p hp
    obtain ⟨h1, h2, h3⟩ := runRetryAux_sleeps cfg o j cfg.retry_max_attempts 1 _ p hp
    obtain ⟨hj0, hj1⟩ := hj p.1
    refine ⟨h1, h2, h3, ?_, ?_⟩
    · rw [h3]; linarith
    · rw [h3]; linarith

theorem retry_backoff_formula_witness :
    1 ≤ (scrape_with_retry defaultConfig allFailOutcomes zeroJitter "21DPR0653I").1.attempts := by
  have hj : ∀ a, 0 ≤ zeroJitter a ∧ zeroJitter a ≤ backoffDelay defaultConfig a / 10 := by
    intro a
    constructor
    · exact le_refl 0
    · have h1 : (0 : ℚ) ≤ backoffDelay defaultConfig a := by
        simp only [backoffDelay, defaultConfig]
        refine le_min ?_ ?_
        · positivity
        · norm_num
      simp only [zeroJitter]
      exact div_nonneg h1 (by norm_num)
  exact (retry_backoff_formula defaultConfig allFailOutcomes zeroJitter "21DPR0653I" hj).2.1
    (by norm_num [defaultConfig])

/-- C4 (counterexample): with the backoff cap reached, an admissible jitter
draw makes the jitter-inclusive delay slept after attempt 1 strictly larger
than the one slept after attempt 2, refuting jitter-inclusive monotonicity. -/
theorem backoff_monotone_cex :
    (0 ≤ capJitter 1 ∧ capJitter 1 ≤ backoffDelay capCfg 1 / 10) ∧
    (0 ≤ capJitter 2 ∧ capJitter 2 ≤ backoffDelay capCfg 2 / 10) ∧
    (scrape_with_retry capCfg allFailOutcomes capJitter "X").2 = [(1, 11/10), (2, 1)] ∧
    ¬ ((11 : ℚ) / 10 ≤ 1) := by
  refine ⟨⟨by norm_num [capJitter], ?_⟩, ⟨by norm_num [capJitter], ?_⟩, ?_, by norm_num⟩
  · norm_num [capJitter, backoffDelay, capCfg]
  · norm_num [capJitter, backoffDelay, capCfg]
  · norm_num [scrape_with_retry, runRetryAux, capCfg, capJitter, allFailOutcomes,
      isSuccessOutcome, errOf, backoffDelay]

/-- C4 (amended): within one call to `scrape_with_retry`, the pre-jitter part
of each backoff delay — the slept value minus the jitter drawn for that
attempt — is monotonically non-decreasing across attempts, provided the
configured base delay is nonnegative.  (Jitter included, monotonicity can fail
once the cap is reached, see the counterexample.) -/
theorem backoff_monotone_base (cfg : ScraperConfig) (o : Nat → AttemptOutcome) (j : Nat → ℚ)
    (code : String) (hb : 0 ≤ cfg.retry_base_delay) :
    ∀ p ∈ (scrape_with_retry cfg o j code).2, ∀ q ∈ (scrape_with_retry cfg o j code).2,
      p.1 ≤ q.1 → p.2 - j p.1 ≤ q.2 - j q.1 := by
  intro p hp q hq hpq
  obtain ⟨_, _, hp3⟩ := runRetryAux_sleeps cfg o j cfg.retry_max_attempts 1 _ p hp
  obtain ⟨_, _, hq3⟩ := runRetryAux_sleeps cfg o j cfg.retry_max_attempts 1 _ q hq
  rw [hp3, hq3]
  have hmono : backoffDelay cfg p.1 ≤ backoffDelay cfg q.1 := by
    unfold backoffDelay
    refine min_le_min ?_ (le_refl _)
    refine mul_le_mul_of_nonneg_left ?_ hb
    exact pow_le_pow_right₀ (by norm_num) (Nat.sub_le_sub_right hpq 1)
  linarith

theorem backoff_monotone_base_witness :
    ((1 : Nat), (1 : ℚ)) ∈ (scrape_with_retry defaultConfig allFailOutcomes zeroJitter "X").2 ∧
    ((2 : Nat), (2 : ℚ)) ∈ (scrape_with_retry defaultConfig allFailOutcomes zeroJitter "X").2 ∧
    (1 : ℚ) - zeroJitter 1 ≤ (2 : ℚ) - zeroJitter 2 := by
  have hmem1 : ((1 : Nat), (1 : ℚ)) ∈
      (scrape_with_retry defaultConfig allFailOutcomes zeroJitter "X").2 := by
    norm_num [scrape_with_retry, runRetryAux, defaultConfig, zeroJitter, allFailOutcomes,
      isSuccessOutcome, errOf, backoffDelay]
  have hmem2 : ((2 : Nat), (2 : ℚ)) ∈
      (scrape_with_retry defaultConfig allFailOutcomes zeroJitter "X").2 := by
    norm_num [scrape_with_retry, runRetryAux, defaultConfig, zeroJitter, allFailOutcomes,
      isSuccessOutcome, errOf, backoffDelay]
  exact ⟨hmem1, hmem2,
    backoff_monotone_base defaultConfig allFailOutcomes zeroJitter "X"
      (by norm_num [defaultConfig]) _ hmem1 _ hmem2 (by norm_num)⟩

/-- C5: any non-success outcome of an attempt — failure record, timeout or
exception — leads to a retry: the loop returns early only on a success, and
with no success it runs all `retry_max_attempts` attempts, recording the last
error. -/
theorem retry_eligibility (cfg : ScraperConfig) (o : Nat → AttemptOutcome) (j : Nat → ℚ)
    (code : String) :
    ((∀ a, 1 ≤ a → a ≤ cfg.retry_max_attempts → isSuccessOutcome (o a) = false) →
      (scrape_with_retry cfg o j code).1.school_data = none ∧
      (scrape_with_retry cfg o j code).1.attempts = cfg.retry_max_attempts ∧
      (1 ≤ cfg.retry_max_attempts →
        (scrape_with_retry cfg o j code).1.last_error = errOf (o cfg.retry_max_attempts))) ∧
    ∀ sd, (scrape_with_retry cfg o j code).1.school_data = some sd →
      sd.success = true ∧
      o ((scrape_with_retry cfg o j code).1.attempts) = AttemptOutcome.val sd ∧
      1 ≤ (scrape_with_retry cfg o j code).1.attempts ∧
      (scrape_with_retry cfg o j code).1.attempts ≤ cfg.retry_max_attempts ∧
      ∀ i, 1 ≤ i → i < (scrape_with_retry cfg o j code).1.attempts →
        isSuccessOutcome (o i) = false := by
  unfold scrape_with_retry
  constructor
  · intro hno
    have h := runRetryAux_no_success cfg o j cfg.retry_max_attempts 1 ⟨none, code, 0, none⟩
      (fun i h1 h2 => hno i h1 (by omega)) (by omega)
    rcases Nat.eq_zero_or_pos cfg.retry_max_attempts with h0 | hpos
    · refine ⟨h.1, ?_, ?_⟩
      · rw [h.2.2 h0, h0]
      · intro hcon; exact absurd hcon (by omega)
    · exact ⟨h.1, (h.2.1 hpos).1, fun _ => (h.2.1 hpos).2⟩
  · intro sd hsd
    obtain ⟨i, h1, h2, h3, h4, h5, h6⟩ :=
      runRetryAux_success_sound cfg o j cfg.retry_max_attempts 1 ⟨none, code, 0, none⟩ sd rfl hsd
    rw [h6]
    refine ⟨h4, h3, h1, by omega, ?_⟩
    intro m hm1 hm2
    exact h5 m hm1 hm2

theorem retry_eligibility_witness :
    (scrape_with_retry defaultConfig allFailOutcomes zeroJitter "21DPR0653I").1.attempts = 3 := by
  have h := (retry_eligibility defaultConfig allFailOutcomes zeroJitter "21DPR0653I").1
    (fun a _ _ => rfl)
  exact h.2.1

/-! ### Python string helpers -/

/-- Python `str.strip()` on a character list (whitespace at both ends). -/
def pyStripChars (cs : List Char) : List Char :=
  ((cs.dropWhile Char.isWhitespace).reverse.dropWhile Char.isWhitespace).reverse

/-- Python `str.strip()`. -/
def pyStrip (s : String) : String := String.mk (pyStripChars s.data)

/-- Python `line.split('-', 1)` when the line contains a dash: the part
before the first `'-'` and the remainder after it; `none` when there is no
dash (so `len(parts) < 2` and the line is skipped). -/
def splitDash1 (cs : List Char) : Option (List Char × List Char) :=
  match cs.dropWhile (fun c => !(c == '-')) with
  | '-' :: rest => some (cs.takeWhile (fun c => !(c == '-')), rest)
  | _ => none

/-! ### merge_results (scraper_utils.py) -/

/-- One iteration of `merge_results`' reading loop (scraper_utils.py lines
105-111): skip blank lines and lines without `'-'`; otherwise yield the
stripped code before the first dash and the stripped remainder. -/
def parseMergeLine (line : String) : Option (String × String) :=
  if (pyStripChars line.data).isEmpty then none
  else
    match splitDash1 line.data with
    | some (a, b) => some (String.mk (pyStripChars a), String.mk (pyStripChars b))
    | none => none

/-- All (code, rest) pairs read by `merge_results`, in file order then line
order (missing files contribute no lines). -/
def parsePairs (files : List (List String)) : List (String × String) :=
  files.flatten.filterMap parseMergeLine

/-- Python dict assignment `d[k] = v`: overwrite in place, else append. -/
def updateAssoc : List (String × String) → String → String → List (String × String)
  | [], k, v => [(k, v)]
  | (a, b) :: t, k, v =>
      if a = k then (a, v) :: t else (a, b) :: updateAssoc t k v

/-- The `all_results` dict built by `merge_results`. -/
def mergeMap (files : List (List String)) : List (String × String) :=
  (parsePairs files).foldl (fun m p => updateAssoc m p.1 p.2) []

/-- Order used by `sorted(all_results.items())`; the dict's keys are unique,
so comparing keys agrees with Python's tuple comparison. -/
def keyLE (p q : String × String) : Prop := p.1 ≤ q.1

instance : DecidableRel keyLE := fun p q => inferInstanceAs (Decidable (p.1 ≤ q.1))

/-- Model of `merge_results` (scraper_utils.py lines 95-119): the (code, rest) pairs
written to the merged output file, one `code-rest` line each, in order. -/
def merge_results (files : List (List String)) : List (String × String) :=
  (mergeMap files).insertionSort keyLE

/-- The value recorded for `k` by the last assignment `d[k] = v` in a
left-to-right pass over `ps` (`none` if `k` never occurs). -/
def lastVal (k : String) (ps : List (String × String)) : Option String :=
  ps.foldl (fun acc p => if p.1 = k then some p.2 else acc) none

/-- Association-list lookup (Python dict read). -/
def assocLookup (k : String) : List (String × String) → Option String
  | [] => none
  | (a, b) :: t => if a = k then some b else assocLookup k t

/-- Returns `a` if present, else `b`. -/
def firstSome (a b : Option String) : Option String :=
  match a with
  | some v => some v
  | none => b

theorem firstSome_none_right (a : Option String) : firstSome a none = a := by
  cases a <;> rfl

theorem firstSome_assoc (a b c : Option String) :
    firstSome (firstSome a b) c = firstSome a (firstSome b c) := by
  cases a <;> rfl

theorem lastVal_foldl (k : String) :
    ∀ (ps : List (String × String)) (acc : Option String),
      ps.foldl (fun acc p => if p.1 = k then some p.2 else acc) acc =
        firstSome (lastVal k ps) acc := by
  intro ps
  induction ps with
  | nil => intro acc; rfl
  | cons p ps ih =>
      intro acc
      show List.foldl _ (if p.1 = k then some p.2 else acc) ps = _
      rw [ih]
      have hl : lastVal k (p :: ps) = firstSome (lastVal k ps) (if p.1 = k then some p.2 else none) := by
        show List.foldl _ (if p.1 = k then some p.2 else none) ps = _
        rw [ih]
      rw [hl, firstSome_assoc]
      congr 1
      by_cases hp : p.1 = k <;> simp [hp, firstSome]

theorem assocLookup_update (ku vu k : String) :
    ∀ (m : List (String × String)),
      assocLookup k (updateAssoc m ku vu) = if ku = k then some vu else assocLookup k m := by
  intro m
  induction m with
  | nil => simp [updateAssoc, assocLookup]
  | cons p t ih =>
      obtain ⟨a, b⟩ := p
      by_cases hak : a = ku
      · subst hak
        simp only [updateAssoc, if_pos rfl, assocLookup]
        by_cases h : a = k <;> simp [h]
      · simp only [updateAssoc, if_neg hak, assocLookup]
        by_cases h : a = k
        · subst h
          have : ¬ (ku = a) := fun hc => hak hc.symm
          simp [this]
        · simp [h, ih]

theorem keys_updateAssoc (ku vu : String) :
    ∀ (m : List (String × String)),
      (updateAssoc m ku vu).map Prod.fst =
        if ku ∈ m.map Prod.fst then m.map Prod.fst else m.map Prod.fst ++ [ku] := by
  intro m
  induction m with
  | nil => simp [updateAssoc]
  | cons p t ih =>
      obtain ⟨a, b⟩ := p
      by_cases hak : a = ku
      · subst hak
        simp [updateAssoc]
      · simp only [updateAssoc, if_neg hak, List.map_cons, List.mem_cons]
        have hne : ¬ (ku = a) := fun hc => hak hc.symm
        by_cases hmem : ku ∈ t.map Prod.fst
        · simp [hmem, hne, ih]
        · simp [hmem, hne, ih]

theorem nodup_keys_updateAssoc (ku vu : String) (m : List (String × String))
    (h : (m.map Prod.fst).Nodup) : ((updateAssoc m ku vu).map Prod.fst).Nodup := by
  rw [keys_updateAssoc]
  by_cases hmem : ku ∈ m.map Prod.fst
  · simpa [hmem] using h
  · simp only [hmem, if_false]
    simp [List.nodup_append, h, hmem]

theorem nodup_keys_mergeMap (files : List (List String)) :
    ((mergeMap files).map Prod.fst).Nodup := by
  have haux : ∀ (ps : List (String × String)) (m : List (String × String)),
      (m.map Prod.fst).Nodup →
      ((ps.foldl (fun m p => updateAssoc m p.1 p.2) m).map Prod.fst).Nodup := by
    intro ps
    induction ps with
    | nil => intro m hm; exact hm
    | cons p ps ih =>
        intro m hm
        exact ih _ (nodup_keys_updateAssoc p.1 p.2 m hm)
  exact haux (parsePairs files) [] (by simp)

theorem assoc_mem_iff_lookup (k v : String) :
    ∀ (m : List (String × String)), (m.map Prod.fst).Nodup →
      ((k, v) ∈ m ↔ assocLookup k m = some v) := by
  intro m
  induction m with
  | nil => intro _; simp [assocLookup]
  | cons p t ih =>
      intro hnd
      obtain ⟨a, b⟩ := p
      simp only [List.map_cons, List.nodup_cons] at hnd
      by_cases hak : a = k
      · subst hak
        simp only [assocLookup, if_pos rfl, List.mem_cons]
        constructor
        · rintro (h | h)
          · cases h; rfl
          · exact absurd (List.mem_map_of_mem Prod.fst h) hnd.1
        · rintro h
          cases h
          exact Or.inl rfl
      · simp only [assocLookup, if_neg hak, List.mem_cons]
        rw [← ih hnd.2]
        constructor
        · rintro (h | h)
          · cases h; exact absurd rfl hak
          · exact h
        · exact fun h => Or.inr h

theorem assocLookup_mergeMap (k : String) (files : List (List String)) :
    assocLookup k (mergeMap files) = lastVal k (parsePairs files) := by
  have haux : ∀ (ps : List (String × String)) (m : List (String × String)),
      assocLookup k (ps.foldl (fun m p => updateAssoc m p.1 p.2) m) =
        firstSome (lastVal k ps) (assocLookup k m) := by
    intro ps
    induction ps with
    | nil => intro m; rfl
    | cons p ps ih =>
        intro m
        show assocLookup k (List.foldl _ (updateAssoc m p.1 p.2) ps) = _
        rw [ih, assocLookup_update]
        have hl : lastVal k (p :: ps) =
            firstSome (lastVal k ps) (if p.1 = k then some p.2 else none) := by
          show List.foldl _ (if p.1 = k then some p.2 else none) ps = _
          rw [lastVal_foldl]
        rw [hl, firstSome_assoc]
        congr 1
        by_cases hp : p.1 = k <;> simp [hp, firstSome]
  rw [mergeMap, haux]
  simp [assocLookup, firstSome_none_right]

/-- Two one-line result files sharing the identifier `A` with different
values. -/
def mergeCexFiles : List (List String) := [["A-1"], ["A-2"]]

/-- C2 (counterexample): when identifier `A` occurs in two input files with
values `1` then `2`, `merge_results` keeps the value of the LAST occurrence:
the output is `[("A", "2")]`, not `[("A", "1")]` as keeping the first
occurrence would give. -/
theorem merge_first_occurrence_cex :
    parsePairs mergeCexFiles = [("A", "1"), ("A", "2")] ∧
    merge_results mergeCexFiles = [("A", "2")] ∧
    merge_results mergeCexFiles ≠ [("A", "1")] := by
  refine ⟨by decide, by decide, by decide⟩

/-- C2 (amended): `merge_results` writes each identifier at most once, and
the value kept for an identifier is the one from its LAST occurrence in the
input files (file order, then line order). -/
theorem merge_results_last_wins (files : List (List String)) :
    ((merge_results files).map Prod.fst).Nodup ∧
    ∀ k v, ((k, v) ∈ merge_results files ↔ lastVal k (parsePairs files) = some v) := by
  have hperm : List.Perm ((mergeMap files).insertionSort keyLE) (mergeMap files) :=
    List.perm_insertionSort keyLE (mergeMap files)
  have hnodup : ((mergeMap files).map Prod.fst).Nodup := nodup_keys_mergeMap files
  constructor
  · exact ((hperm.map Prod.fst).nodup_iff).mpr hnodup
  · intro k v
    rw [merge_results, hperm.mem_iff, assoc_mem_iff_lookup k v (mergeMap files) hnodup,
      assocLookup_mergeMap]

/-! ### load_progress and the batch partition (example_usage.py) -/

/-- Python `line.split('-')[0]`: the prefix of the line before its first `'-'`
(the whole line when there is no dash). -/
def takeBeforeDash (s : String) : String :=
  String.mk (s.data.takeWhile (fun c => !(c == '-')))

/-- Model of `load_progress` (example_usage.py lines 121-131): the stripped prefix
before the first dash of every non-blank line of the progress file.  (The
Python code collects them into a set; membership below is list membership,
which coincides with set membership.) -/
def load_progress (progressLines : List String) : List String :=
  (progressLines.filter (fun l => !(pyStripChars l.data).isEmpty)).map
    (fun l => pyStrip (takeBeforeDash l))

/-- Line 189: `all_ct_codes = [line.strip() for line in f if line.strip()]`. -/
def allCodes (inputLines : List String) : List String :=
  inputLines.filterMap (fun l =>
    if (pyStripChars l.data).isEmpty then none else some (String.mk (pyStripChars l.data)))

/-- Line 198: `ct_codes = [code for code in all_ct_codes if code not in processed_codes]`. -/
def pendingCodes (inputLines progressLines : List String) : List String :=
  (allCodes inputLines).filter (fun c => decide (c ∉ load_progress progressLines))

/-- The consecutive slices `ct_codes[i:i+batch_size]` for
`i in range(0, len(ct_codes), batch_size)` (lines 220-221). -/
def chunks {α : Type} (n : Nat) : List α → List (List α)
  | [] => []
  | x :: xs => (x :: xs.take (n - 1)) :: chunks n (xs.drop (n - 1))
  termination_by l => l.length
  decreasing_by simp [List.length_drop]; omega

/-- All codes submitted to the scraper by `read_ct_codes_from_file`: the
batches, concatenated in order. -/
def submittedCodes (cfg : ScraperConfig) (inputLines progressLines : List String) : List String :=
  (chunks cfg.max_concurrent_requests (pendingCodes inputLines progressLines)).flatten

theorem chunks_flatten_aux {α : Type} (n : Nat) :
    ∀ (N : Nat) (l : List α), l.length ≤ N → (chunks n l).flatten = l := by
  intro N
  induction N with
  | zero =>
      intro l hl
      have h0 : l = [] := List.length_eq_zero.mp (Nat.le_zero.mp hl)
      subst h0
      simp [chunks]
  | succ N ih =>
      intro l hl
      cases l with
      | nil => simp [chunks]
      | cons x xs =>
          simp only [List.length_cons] at hl
          rw [chunks]
          simp only [List.flatten_cons]
          rw [ih (xs.drop (n - 1)) (by simp [List.length_drop]; omega)]
          simp [List.take_append_drop]

theorem chunks_flatten {α : Type} (n : Nat) (l : List α) : (chunks n l).flatten = l :=
  chunks_flatten_aux n l.length l (Nat.le_refl _)

/-- C3: on a rerun, every identifier recorded in the progress file (stripped
prefix before the first dash of a non-blank line) is excluded from the codes
submitted to the scraper, and exactly the remaining identifiers of the input
list are submitted. -/
theorem skip_processed (cfg : ScraperConfig) (inputLines progressLines : List String)
    (hn : 0 < cfg.max_concurrent_requests) :
    submittedCodes cfg inputLines progressLines = pendingCodes inputLines progressLines ∧
    (∀ c ∈ load_progress progressLines, c ∉ submittedCodes cfg inputLines progressLines) ∧
    (∀ c, c ∈ submittedCodes cfg inputLines progressLines ↔
      c ∈ allCodes inputLines ∧ c ∉ load_progress progressLines) := by
  have hsub : submittedCodes cfg inputLines progressLines = pendingCodes inputLines progressLines :=
    chunks_flatten _ _
  have hmem : ∀ c, c ∈ submittedCodes cfg inputLines progressLines ↔
      c ∈ allCodes inputLines ∧ c ∉ load_progress progressLines := by
    intro c
    rw [hsub, pendingCodes, List.mem_filter]
    simp
  exact ⟨hsub, fun c hc hmemc => ((hmem c).mp hmemc).2 hc, hmem⟩

/-- Concrete input list and progress file for the C3 witness. -/
def c3Input : List String := ["A", "B", ""]

def c3Progress : List String := ["A-19.4,-99.1-u"]

theorem skip_processed_witness :
    "B" ∈ submittedCodes defaultConfig c3Input c3Progress ∧
    "A" ∉ submittedCodes defaultConfig c3Input c3Progress := by
  have h := skip_processed defaultConfig c3Input c3Progress (by norm_num [defaultConfig])
  constructor
  · exact (h.2.2 "B").mpr ⟨by decide, by decide⟩
  · intro hmem
    exact ((h.2.2 "A").mp hmem).2 (by decide)

/-! ### Batch schedule (read_ct_codes_from_file, lines 216-266) -/

/-- Line 217: `total_batches = (len(ct_codes) + batch_size - 1) // batch_size`
with `batch_size = max_concurrent_requests`. -/
def total_batches (cfg : ScraperConfig) (codes : List String) : Nat :=
  (codes.length + cfg.max_concurrent_requests - 1) / cfg.max_concurrent_requests

/-- The inter-batch sleeps of the batch loop: for each batch, numbered `bn`
starting at 1, a pause `oracle bn` (the value drawn by
`random.uniform(batch_delay_min, batch_delay_max)`) is slept exactly when
`bn < total` (line 262). -/
def runBatchLoop (total : Nat) (oracle : Nat → ℚ) : Nat → List (List String) → List ℚ
  | _, [] => []
  | bn, _ :: rest =>
      (if bn < total then [oracle bn] else []) ++ runBatchLoop total oracle (bn + 1) rest

/-- The pauses slept between the batches of `codes`. -/
def batchPauses (cfg : ScraperConfig) (codes : List String) (oracle : Nat → ℚ) : List ℚ :=
  runBatchLoop (total_batches cfg codes) oracle 1
    (chunks cfg.max_concurrent_requests codes)

theorem chunks_eq_nil_iff {α : Type} (n : Nat) (l : List α) : chunks n l = [] ↔ l = [] := by
  cases l <;> simp [chunks]

theorem chunks_length_le_aux {α : Type} (n : Nat) (hn : 0 < n) :
    ∀ (N : Nat) (l : List α), l.length ≤ N → ∀ b ∈ chunks n l, b.length ≤ n := by
  intro N
  induction N with
  | zero =>
      intro l hl b hb
      have h0 : l = [] := List.length_eq_zero.mp (Nat.le_zero.mp hl)
      subst h0
      simp [chunks] at hb
  | succ N ih =>
      intro l hl b hb
      cases l with
      | nil => simp [chunks] at hb
      | cons x xs =>
          simp only [List.length_cons] at hl
          rw [chunks] at hb
          rcases List.mem_cons.mp hb with h1 | h2
          · subst h1
            simp only [List.length_cons, List.length_take]
            omega
          · exact ih (xs.drop (n - 1)) (by simp [List.length_drop]; omega) b h2

theorem chunks_dropLast_aux {α : Type} (n : Nat) (hn : 0 < n) :
    ∀ (N : Nat) (l : List α), l.length ≤ N → ∀ b ∈ (chunks n l).dropLast, b.length = n := by
  intro N
  induction N with
  | zero =>
      intro l hl b hb
      have h0 : l = [] := List.length_eq_zero.mp (Nat.le_zero.mp hl)
      subst h0
      simp [chunks] at hb
  | succ N ih =>
      intro l hl b hb
      cases l with
      | nil => simp [chunks] at hb
      | cons x xs =>
          simp only [List.length_cons] at hl
          rw [chunks] at hb
          cases hrest : chunks n (xs.drop (n - 1)) with
          | nil => rw [hrest] at hb; simp at hb
          | cons c cs =>
              rw [hrest, List.dropLast_cons₂, List.mem_cons] at hb
              have hxs : ¬ (xs.drop (n - 1) = []) := by
                intro hc
                rw [hc] at hrest
                simp [chunks] at hrest
              have hlen : n - 1 < xs.length := by
                by_contra hcon
                exact hxs (List.drop_eq_nil_iff.mpr (by omega))
              rcases hb with h1 | h2
              · subst h1
                simp only [List.length_cons, List.length_take]
                omega
              · have := ih (xs.drop (n - 1)) (by simp [List.length_drop]; omega) b
                rw [hrest] at this
                exact this h2

theorem chunks_length_aux {α : Type} (n : Nat) (hn : 0 < n) :
    ∀ (N : Nat) (l : List α), l.length ≤ N →
      (chunks n l).length = (l.length + n - 1) / n := by
  intro N
  induction N with
  | zero =>
      intro l hl
      have h0 : l = [] := List.length_eq_zero.mp (Nat.le_zero.mp hl)
      subst h0
      have hd : (n - 1) / n = 0 := Nat.div_eq_of_lt (by omega)
      simp [chunks, hd]
  | succ N ih =>
      intro l hl
      cases l with
      | nil =>
          have hd : (n - 1) / n = 0 := Nat.div_eq_of_lt (by omega)
          simp [chunks, hd]
      | cons x xs =>
          simp only [List.length_cons] at hl
          rw [chunks]
          simp only [List.length_cons, List.length_drop]
          rw [ih (xs.drop (n - 1)) (by simp [List.length_drop]; omega)]
          simp only [List.length_drop]
          have hR : xs.length + 1 + n - 1 = xs.length + n := by omega
          rw [hR, Nat.add_div_right _ hn]
          by_cases hL : xs.length < n
          · have h1 : xs.length - (n - 1) = 0 := by omega
            rw [h1]
            have h2 : (0 + n - 1) / n = 0 := Nat.div_eq_of_lt (by omega)
            have h3 : xs.length / n = 0 := Nat.div_eq_of_lt hL
            omega
          · have h1 : xs.length - (n - 1) + n - 1 = xs.length := by omega
            rw [h1]

theorem runBatchLoop_length (total : Nat) (oracle : Nat → ℚ) :
    ∀ (bs : List (List String)) (bn : Nat), bn + bs.length = total + 1 →
      (runBatchLoop total oracle bn bs).length = bs.length - 1 := by
  intro bs
  induction bs with
  | nil => intro bn h; rfl
  | cons b rest ih =>
      intro bn h
      cases rest with
      | nil =>
          have hbn : ¬ (bn < total) := by
            simp only [List.length_cons, List.length_nil] at h
            omega
          simp [runBatchLoop, hbn]
      | cons c cs =>
          have hbn : bn < total := by
            simp only [List.length_cons] at h
            omega
          have ihh := ih (bn + 1) (by simp only [List.length_cons] at h ⊢; omega)
          rw [runBatchLoop]
          simp only [hbn, if_true, List.length_append, ihh]
          simp only [List.length_cons, List.length_nil]
          omega

theorem runBatchLoop_mem (total : Nat) (oracle : Nat → ℚ) (lo hi : ℚ)
    (ho : ∀ i, lo ≤ oracle i ∧ oracle i ≤ hi) :
    ∀ (bs : List (List String)) (bn : Nat) (d : ℚ),
      d ∈ runBatchLoop total oracle bn bs → lo ≤ d ∧ d ≤ hi := by
  intro bs
  induction bs with
  | nil => intro bn d hd; simp [runBatchLoop] at hd
  | cons b rest ih =>
      intro bn d hd
      rw [runBatchLoop] at hd
      rcases List.mem_append.mp hd with h1 | h2
      · by_cases hbn : bn < total
        · simp only [hbn, if_true, List.mem_singleton] at h1
          subst h1
          exact ho bn
        · simp [hbn] at h1
      · exact ih (bn + 1) d h2

/-- C9: the batch loop partitions the pending codes into consecutive batches
of size `max_concurrent_requests` (the last possibly smaller) preserving
order, and sleeps one randomized pause, drawn within
`[batch_delay_min, batch_delay_max]`, after every batch except the last. -/
theorem batching_schedule (cfg : ScraperConfig) (codes : List String) (oracle : Nat → ℚ)
    (hn : 0 < cfg.max_concurrent_requests)
    (ho : ∀ i, cfg.batch_delay_min ≤ oracle i ∧ oracle i ≤ cfg.batch_delay_max) :
    (chunks cfg.max_concurrent_requests codes).flatten = codes ∧
    (∀ b ∈ chunks cfg.max_concurrent_requests codes,
      b.length ≤ cfg.max_concurrent_requests) ∧
    (∀ b ∈ (chunks cfg.max_concurrent_requests codes).dropLast,
      b.length = cfg.max_concurrent_requests) ∧
    (chunks cfg.max_concurrent_requests codes).length = total_batches cfg codes ∧
    (batchPauses cfg codes oracle).length = total_batches cfg codes - 1 ∧
    (∀ d ∈ batchPauses cfg codes oracle,
      cfg.batch_delay_min ≤ d ∧ d ≤ cfg.batch_delay_max) := by
  have hlen : (chunks cfg.max_concurrent_requests codes).length = total_batches cfg codes :=
    chunks_length_aux _ hn codes.length codes (Nat.le_refl _)
  refine ⟨chunks_flatten _ _,
    fun b hb => chunks_length_le_aux _ hn codes.length codes (Nat.le_refl _) b hb,
    fun b hb => chunks_dropLast_aux _ hn codes.length codes (Nat.le_refl _) b hb,
    hlen, ?_, fun d hd => runBatchLoop_mem _ oracle _ _ ho _ 1 d hd⟩
  rw [batchPauses, runBatchLoop_length _ oracle _ 1 (by omega), hlen]

/-- Pause oracle for the C9 witness: always 3/2. -/
def c9Oracle : Nat → ℚ := fun _ => 3/2

theorem batching_schedule_witness :
    (chunks defaultConfig.max_concurrent_requests ["A", "B", "C", "D"]).flatten
      = ["A", "B", "C", "D"] ∧
    (batchPauses defaultConfig ["A", "B", "C", "D"] c9Oracle).length
      = total_batches defaultConfig ["A", "B", "C", "D"] - 1 := by
  have h := batching_schedule defaultConfig ["A", "B", "C", "D"] c9Oracle
    (by norm_num [defaultConfig])
    (fun i => by norm_num [defaultConfig, c9Oracle])
  exact ⟨h.1, h.2.2.2.2.1⟩

/-! ### The coordinate search regex of save_result_incrementally

`re.search(r'place/(-?\d+\.\d+),(-?\d+\.\d+)', href)`: at the leftmost
position where the pattern matches, both groups are greedy; greediness is
deterministic here because every quantified class is followed by a character
it cannot match. -/

/-- Pattern `\d+\.\d+` at the head of `cs`: the matched characters and the rest. -/
def matchDecDotCore (cs : List Char) : Option (List Char × List Char) :=
  if (cs.takeWhile Char.isDigit).isEmpty then none
  else
    match cs.dropWhile Char.isDigit with
    | '.' :: r2 =>
        if (r2.takeWhile Char.isDigit).isEmpty then none
        else some (cs.takeWhile Char.isDigit ++ '.' :: r2.takeWhile Char.isDigit,
          r2.dropWhile Char.isDigit)
    | _ => none

/-- Pattern `-?\d+\.\d+` at the head of `cs`: the optional sign is consumed when
present (backtracking cannot help, since `\d+` never matches `'-'`). -/
def matchDecDot (cs : List Char) : Option (List Char × List Char) :=
  match cs with
  | c :: rest =>
      if c = '-' then
        match matchDecDotCore rest with
        | some (g, r) => some ('-' :: g, r)
        | none => none
      else matchDecDotCore (c :: rest)
  | [] => matchDecDotCore []

/-- The full pattern anchored at the head of `cs`; returns the two groups. -/
def matchPlaceAt (cs : List Char) : Option (List Char × List Char) :=
  if cs.take 6 = ['p', 'l', 'a', 'c', 'e', '/'] then
    match matchDecDot (cs.drop 6) with
    | some (lat, r1) =>
        match r1 with
        | c :: r2 =>
            if c = ',' then
              match matchDecDot r2 with
              | some (lng, _) => some (lat, lng)
              | none => none
            else none
        | [] => none
    | none => none
  else none

/-- Python `re.search`: try the pattern at each position, leftmost match wins. -/
def searchPlace : List Char → Option (List Char × List Char)
  | [] => none
  | c :: rest =>
      match matchPlaceAt (c :: rest) with
      | some g => some g
      | none => searchPlace rest

/-- Strings matched by `\d+\.\d+` in full: one or more digits, a dot, one or
more digits. -/
def decDotCoreB (cs : List Char) : Bool :=
  !(cs.takeWhile Char.isDigit).isEmpty &&
    (match cs.dropWhile Char.isDigit with
     | '.' :: r2 => !r2.isEmpty && r2.all Char.isDigit
     | _ => false)

/-- Strings matched by `-?\d+\.\d+` in full. -/
def decDotLitB (cs : List Char) : Bool :=
  match cs with
  | c :: rest => if c = '-' then decDotCoreB rest else decDotCoreB (c :: rest)
  | [] => decDotCoreB []

theorem mem_takeWhile_pred {p : Char → Bool} :
    ∀ (l : List Char) (c : Char), c ∈ l.takeWhile p → p c = true := by
  intro l
  induction l with
  | nil => intro c hc; simp [List.takeWhile] at hc
  | cons x xs ih =>
      intro c hc
      rw [List.takeWhile] at hc
      cases hx : p x with
      | false => rw [hx] at hc; simp at hc
      | true =>
          rw [hx] at hc
          rcases List.mem_cons.mp hc with h1 | h2
          · subst h1; exact hx
          · exact ih c h2

/-- When `xs` is all-`p` and `rest` is empty or starts with a non-`p`
character, the span of `xs ++ rest` is exactly `(xs, rest)`. -/
theorem span_exact {p : Char → Bool} (xs rest : List Char)
    (hxs : ∀ c ∈ xs, p c = true)
    (hrest : rest = [] ∨ ∃ c t, rest = c :: t ∧ p c = false) :
    (xs ++ rest).takeWhile p = xs ∧ (xs ++ rest).dropWhile p = rest := by
  constructor
  · rw [List.takeWhile_append_of_pos hxs]
    rcases hrest with h0 | ⟨c, t, hct, hc⟩
    · subst h0; simp
    · subst hct
      simp [List.takeWhile_cons, hc]
  · rw [List.dropWhile_append_of_pos hxs]
    rcases hrest with h0 | ⟨c, t, hct, hc⟩
    · subst h0; simp
    · subst hct
      simp [List.dropWhile_cons, hc]

theorem matchDecDotCore_sound (cs g r : List Char) (h : matchDecDotCore cs = some (g, r)) :
    cs = g ++ r ∧ decDotCoreB g = true ∧ ∃ c gs, g = c :: gs ∧ Char.isDigit c = true := by
  unfold matchDecDotCore at h
  split at h
  · exact absurd h (by simp)
  · rename_i hd1
    split at h
    · rename_i r2 hr1
      split at h
      · exact absurd h (by simp)
      · rename_i hd2
        injection h with h2
        cases h2
        have hallT : ∀ c ∈ cs.takeWhile Char.isDigit, Char.isDigit c = true :=
          fun c hc => mem_takeWhile_pred _ c hc
        have hallD : ∀ c ∈ r2.takeWhile Char.isDigit, Char.isDigit c = true :=
          fun c hc => mem_takeWhile_pred _ c hc
        refine ⟨?_, ?_, ?_⟩
        · calc cs = cs.takeWhile Char.isDigit ++ cs.dropWhile Char.isDigit :=
                (List.takeWhile_append_dropWhile _ _).symm
            _ = cs.takeWhile Char.isDigit ++ ('.' :: r2) := by rw [hr1]
            _ = cs.takeWhile Char.isDigit ++
                ('.' :: (r2.takeWhile Char.isDigit ++ r2.dropWhile Char.isDigit)) := by
                rw [List.takeWhile_append_dropWhile]
            _ = (cs.takeWhile Char.isDigit ++ '.' :: r2.takeWhile Char.isDigit) ++
                r2.dropWhile Char.isDigit := by simp
        · have hspan := span_exact (p := Char.isDigit) (cs.takeWhile Char.isDigit)
            ('.' :: r2.takeWhile Char.isDigit) hallT
            (Or.inr ⟨'.', r2.takeWhile Char.isDigit, rfl, by decide⟩)
          unfold decDotCoreB
          rw [hspan.1, hspan.2]
          simp only [Bool.and_eq_true, Bool.not_eq_true']
          refine ⟨by simpa using hd1, by simpa using hd2, ?_⟩
          exact List.all_eq_true.mpr hallD
        · cases hT : cs.takeWhile Char.isDigit with
          | nil => rw [hT] at hd1; simp at hd1
          | cons c T =>
              refine ⟨c, T ++ '.' :: r2.takeWhile Char.isDigit, by simp [hT], ?_⟩
              exact hallT c (by rw [hT]; exact List.mem_cons_self c T)
    · exact absurd h (by simp)

theorem matchDecDot_sound (cs g r : List Char) (h : matchDecDot cs = some (g, r)) :
    cs = g ++ r ∧ decDotLitB g = true := by
  cases cs with
  | nil =>
      rw [show matchDecDot ([] : List Char) = none from rfl] at h
      exact Option.noConfusion h
  | cons c rest =>
      by_cases hc : c = '-'
      · subst hc
        simp only [matchDecDot, if_pos rfl] at h
        cases hcore : matchDecDotCore rest with
        | none => rw [hcore] at h; exact Option.noConfusion h
        | some p =>
            obtain ⟨g1, r1⟩ := p
            rw [hcore] at h
            simp only at h
            injection h with h2
            cases h2
            obtain ⟨h1, h2b, _⟩ := matchDecDotCore_sound _ _ _ hcore
            refine ⟨by rw [h1]; rfl, ?_⟩
            simp only [decDotLitB, if_pos rfl]
            exact h2b
      · simp only [matchDecDot, if_neg hc] at h
        obtain ⟨h1, h2, c0, gs, hg, hc0⟩ := matchDecDotCore_sound _ _ _ h
        refine ⟨h1, ?_⟩
        rw [hg]
        have hcne : c0 ≠ '-' := by
          intro hcon
          rw [hcon] at hc0
          exact absurd hc0 (by decide)
        simp only [decDotLitB, if_neg hcne]
        rw [← hg]
        exact h2

theorem matchPlaceAt_sound (cs la lo : List Char) (h : matchPlaceAt cs = some (la, lo)) :
    ∃ post, cs = 'p' :: 'l' :: 'a' :: 'c' :: 'e' :: '/' :: (la ++ ',' :: (lo ++ post)) ∧
      decDotLitB la = true ∧ decDotLitB lo = true := by
  unfold matchPlaceAt at h
  by_cases h6 : cs.take 6 = ['p', 'l', 'a', 'c', 'e', '/']
  · rw [if_pos h6] at h
    cases hlat : matchDecDot (cs.drop 6) with
    | none => rw [hlat] at h; exact Option.noConfusion h
    | some p =>
        obtain ⟨lat, r1⟩ := p
        rw [hlat] at h
        simp only at h
        cases r1 with
        | nil => exact Option.noConfusion h
        | cons c2 r2 =>
            simp only at h
            by_cases hc2 : c2 = ','
            · subst hc2
              rw [if_pos rfl] at h
              cases hlng : matchDecDot r2 with
              | none => rw [hlng] at h; exact Option.noConfusion h
              | some q =>
                  obtain ⟨lng, r3⟩ := q
                  rw [hlng] at h
                  simp only at h
                  injection h with h2
                  cases h2
                  obtain ⟨he1, hd1⟩ := matchDecDot_sound _ _ _ hlat
                  obtain ⟨he2, hd2⟩ := matchDecDot_sound _ _ _ hlng
                  refine ⟨r3, ?_, hd1, hd2⟩
                  calc cs = cs.take 6 ++ cs.drop 6 := (List.take_append_drop _ _).symm
                    _ = ['p', 'l', 'a', 'c', 'e', '/'] ++ (la ++ ',' :: r2) := by
                        rw [h6, he1]
                    _ = ['p', 'l', 'a', 'c', 'e', '/'] ++ (la ++ ',' :: (lo ++ r3)) := by
                        rw [he2]
                    _ = 'p' :: 'l' :: 'a' :: 'c' :: 'e' :: '/' ::
                        (la ++ ',' :: (lo ++ r3)) := rfl
            · rw [if_neg hc2] at h
              exact Option.noConfusion h
  · rw [if_neg h6] at h
    exact Option.noConfusion h

theorem searchPlace_sound :
    ∀ (cs la lo : List Char), searchPlace cs = some (la, lo) →
      ∃ pre post, cs = pre ++ ('p' :: 'l' :: 'a' :: 'c' :: 'e' :: '/' ::
        (la ++ ',' :: (lo ++ post))) ∧ decDotLitB la = true ∧ decDotLitB lo = true := by
  intro cs
  induction cs with
  | nil => intro la lo h; exact Option.noConfusion h
  | cons c rest ih =>
      intro la lo h
      rw [searchPlace] at h
      cases hat : matchPlaceAt (c :: rest) with
      | some g =>
          rw [hat] at h
          simp only at h
          injection h with h2
          obtain ⟨lat0, lng0⟩ := g
          cases h2
          obtain ⟨post, he, hd1, hd2⟩ := matchPlaceAt_sound (c :: rest) la lo hat
          exact ⟨[], post, by simpa using he, hd1, hd2⟩
      | none =>
          rw [hat] at h
          simp only at h
          obtain ⟨pre, post, he, hd1, hd2⟩ := ih la lo h
          exact ⟨c :: pre, post, by simp [he], hd1, hd2⟩

/-! ### Incremental persistence (example_usage.py lines 134-160, 236-259) -/

/-- The three output files, each modelled as its full text; a write of a line
appends the line followed by a newline character. -/
structure JobFiles where
  output : String
  progress : String
  failedLog : String
deriving DecidableEq

/-- Python f-string rendering of an optional value (`None` prints as
`"None"`). -/
def optStr (o : Option String) : String :=
  match o with
  | some s => s
  | none => "None"

/-- Python `a or b` on an optional string (`None` and `""` are falsy). -/
def pyOrStr (o : Option String) (d : String) : String :=
  match o with
  | some s => if s = "" then d else s
  | none => d

/-- Model of `save_result_incrementally` (example_usage.py lines 134-154): when the
result carries a successful `SchoolData` with a truthy link containing a
`place/lat,lng` fragment, append the `ct_code-lat,lng-href` line to the
output and progress files and return `True`; otherwise return `False` and
leave every file unchanged. -/
def save_result_incrementally (r : ScrapeResult) (fs : JobFiles) : Bool × JobFiles :=
  match r.school_data with
  | none => (false, fs)
  | some sd =>
      match sd.href with
      | none => (false, fs)
      | some h =>
          if sd.success && !(h == "") then
            match searchPlace h.data with
            | some (la, lo) =>
                let line := optStr sd.ct_code ++ "-" ++ String.mk la ++ "," ++ String.mk lo
                  ++ "-" ++ h
                (true,
                  { output := fs.output ++ line ++ "\n",
                    progress := fs.progress ++ line ++ "\n",
                    failedLog := fs.failedLog })
            | none => (false, fs)
          else (false, fs)

/-- Model of `save_failed_code` (example_usage.py lines 157-160); `ts` is the
`datetime.now().isoformat()` oracle. -/
def save_failed_code (code err ts : String) (fs : JobFiles) : JobFiles :=
  { fs with failedLog := fs.failedLog ++ (code ++ "|" ++ err ++ "|" ++ ts ++ "\n") }

/-- One element of `batch_results` (line 233): with
`asyncio.gather(..., return_exceptions=True)` either a raised exception or a
`ScrapeResult`. -/
inductive BatchItem where
  | exn : String → BatchItem
  | res : ScrapeResult → BatchItem
deriving DecidableEq

/-- The counters of `read_ct_codes_from_file` together with the files. -/
structure JobState where
  files : JobFiles
  successful_count : Nat
  failed_count : Nat
  total_processed : Nat
deriving DecidableEq

/-- One iteration of the result-processing loop (lines 236-251): count the
item; an exception is only logged and counted as failed; a `ScrapeResult` is
saved, and on a failed save the code is appended to the failure log with
`result.last_error or "Unknown error"`. -/
def processItem (ts : String) (st : JobState) (it : BatchItem) : JobState :=
  let st1 := { st with total_processed := st.total_processed + 1 }
  match it with
  | BatchItem.exn _ => { st1 with failed_count := st1.failed_count + 1 }
  | BatchItem.res r =>
      match save_result_incrementally r st1.files with
      | (true, fs) =>
          { st1 with files := fs, successful_count := st1.successful_count + 1 }
      | (false, _) =>
          { st1 with
            files := save_failed_code r.ct_code (pyOrStr r.last_error "Unknown error") ts st1.files,
            failed_count := st1.failed_count + 1 }

/-- The result-processing loop over one batch. -/
def processBatch (ts : String) (st : JobState) (items : List BatchItem) : JobState :=
  items.foldl (processItem ts) st

/-- The outer loop over all batches (every batch is processed; no item stops
the job). -/
def runBatches (ts : String) (st : JobState) (bss : List (List BatchItem)) : JobState :=
  bss.foldl (processBatch ts) st

theorem save_result_spec (r : ScrapeResult) (fs : JobFiles) :
    save_result_incrementally r fs = (false, fs) ∨
    ∃ sd hstr la lo, r.school_data = some sd ∧ sd.href = some hstr ∧ sd.success = true ∧
      hstr ≠ "" ∧ searchPlace hstr.data = some (la, lo) ∧
      save_result_incrementally r fs = (true,
        ⟨fs.output ++ (optStr sd.ct_code ++ "-" ++ String.mk la ++ "," ++ String.mk lo
            ++ "-" ++ hstr) ++ "\n",
         fs.progress ++ (optStr sd.ct_code ++ "-" ++ String.mk la ++ "," ++ String.mk lo
            ++ "-" ++ hstr) ++ "\n",
         fs.failedLog⟩) := by
  unfold save_result_incrementally
  cases hsd : r.school_data with
  | none => exact Or.inl rfl
  | some sd =>
      dsimp only
      cases hh : sd.href with
      | none => exact Or.inl rfl
      | some hstr =>
          dsimp only
          by_cases hcond : (sd.success && !(hstr == "")) = true
          · rw [if_pos hcond]
            cases hsp : searchPlace hstr.data with
            | none => exact Or.inl rfl
            | some g =>
                obtain ⟨la, lo⟩ := g
                right
                refine ⟨sd, hstr, la, lo, rfl, hh, ?_, ?_, hsp, rfl⟩
                · exact ((Bool.and_eq_true _ _).mp hcond).1
                · intro hcon
                  have h2 := ((Bool.and_eq_true _ _).mp hcond).2
                  rw [hcon] at h2
                  simp at h2
          · rw [if_neg hcond]
            exact Or.inl rfl

theorem save_result_false_files (r : ScrapeResult) (fs : JobFiles)
    (h : (save_result_incrementally r fs).1 = false) :
    (save_result_incrementally r fs).2 = fs := by
  rcases save_result_spec r fs with h1 | ⟨sd, hstr, la, lo, _, _, _, _, _, h6⟩
  · rw [h1]
  · rw [h6] at h
    simp at h

theorem processItem_exn (ts : String) (st : JobState) (m : String) :
    processItem ts st (BatchItem.exn m) =
      { st with failed_count := st.failed_count + 1,
                total_processed := st.total_processed + 1 } := rfl

theorem processItem_res_false (ts : String) (st : JobState) (r : ScrapeResult)
    (h : (save_result_incrementally r st.files).1 = false) :
    processItem ts st (BatchItem.res r) =
      { st with
        files := save_failed_code r.ct_code (pyOrStr r.last_error "Unknown error") ts st.files,
        failed_count := st.failed_count + 1,
        total_processed := st.total_processed + 1 } := by
  unfold processItem
  dsimp only
  rcases save_result_spec r st.files with h1 | ⟨sd, hstr, la, lo, _, _, _, _, _, h6⟩
  · rw [h1]
  · rw [h6] at h
    simp at h

theorem processItem_total (ts : String) (st : JobState) (it : BatchItem) :
    (processItem ts st it).total_processed = st.total_processed + 1 := by
  cases it with
  | exn m => rfl
  | res r =>
      unfold processItem
      dsimp only
      rcases hsave : save_result_incrementally r st.files with ⟨b, fs2⟩
      cases b <;> rfl

theorem processBatch_total (ts : String) :
    ∀ (items : List BatchItem) (st : JobState),
      (processBatch ts st items).total_processed = st.total_processed + items.length := by
  intro items
  induction items with
  | nil => intro st; rfl
  | cons it items ih =>
      intro st
      show (processBatch ts (processItem ts st it) items).total_processed = _
      rw [ih, processItem_total]
      simp only [List.length_cons]
      omega

theorem runBatches_total (ts : String) :
    ∀ (bss : List (List BatchItem)) (st : JobState),
      (runBatches ts st bss).total_processed = st.total_processed + (bss.map List.length).sum := by
  intro bss
  induction bss with
  | nil => intro st; simp [runBatches]
  | cons bs bss ih =>
      intro st
      show (runBatches ts (processBatch ts st bs) bss).total_processed = _
      rw [ih, processBatch_total]
      simp only [List.map_cons, List.sum_cons]
      omega

/-- The all-empty job state. -/
def emptyState : JobState := ⟨⟨"", "", ""⟩, 0, 0, 0⟩

/-- The empty files. -/
def emptyFiles : JobFiles := ⟨"", "", ""⟩

/-- C6 (counterexample): an item that is a raised exception is counted as
failed and the loop proceeds, but NO failure entry is recorded: the failure
log is unchanged, refuting "every failure is recorded as a failure entry". -/
theorem batch_exn_cex :
    (processItem "T" emptyState (BatchItem.exn "boom")).files.failedLog
        = emptyState.files.failedLog ∧
    (processItem "T" emptyState (BatchItem.exn "boom")).failed_count
        = emptyState.failed_count + 1 := ⟨rfl, rfl⟩

/-- C6 (amended): no item is fatal — every item of every batch is processed —
and a `ScrapeResult` whose save fails is recorded in the failure log with a
human-readable message; but an item that is a raised exception is only logged
and counted, with no entry written to any file. -/
theorem batch_error_handling :
    (∀ (ts : String) (st : JobState) (m : String),
      processItem ts st (BatchItem.exn m) =
        { st with failed_count := st.failed_count + 1,
                  total_processed := st.total_processed + 1 }) ∧
    (∀ (ts : String) (st : JobState) (r : ScrapeResult),
      (save_result_incrementally r st.files).1 = false →
      processItem ts st (BatchItem.res r) =
        { st with
          files := save_failed_code r.ct_code (pyOrStr r.last_error "Unknown error") ts st.files,
          failed_count := st.failed_count + 1,
          total_processed := st.total_processed + 1 }) ∧
    (∀ (ts : String) (st : JobState) (items : List BatchItem),
      (processBatch ts st items).total_processed = st.total_processed + items.length) ∧
    (∀ (ts : String) (st : JobState) (bss : List (List BatchItem)),
      (runBatches ts st bss).total_processed
        = st.total_processed + (bss.map List.length).sum) :=
  ⟨processItem_exn, processItem_res_false,
    fun ts st items => processBatch_total ts items st,
    fun ts st bss => runBatches_total ts bss st⟩

/-- A result whose scrape never succeeded. -/
def failResult : ScrapeResult := ⟨none, "X1", 3, some "Timeout: t"⟩

theorem batch_error_handling_witness :
    processItem "T" emptyState (BatchItem.res failResult) =
      { emptyState with
        files := save_failed_code failResult.ct_code
          (pyOrStr failResult.last_error "Unknown error") "T" emptyState.files,
        failed_count := emptyState.failed_count + 1,
        total_processed := emptyState.total_processed + 1 } :=
  batch_error_handling.2.1 "T" emptyState failResult (by decide)

/-- C7: a successfully persisted result appends one newline-terminated
`ct_code-lat,lng-href` line to the output file and an identical line to the
progress file and nothing to the failure log, while `save_failed_code`
appends exactly one `code|error|timestamp` line to the failure log. -/
theorem persist_formats :
    (∀ (r : ScrapeResult) (fs fs2 : JobFiles),
      save_result_incrementally r fs = (true, fs2) →
      ∃ sd hstr la lo, r.school_data = some sd ∧ sd.href = some hstr ∧
        searchPlace hstr.data = some (la, lo) ∧
        fs2.output = fs.output ++ (optStr sd.ct_code ++ "-" ++ String.mk la ++ ","
          ++ String.mk lo ++ "-" ++ hstr) ++ "\n" ∧
        fs2.progress = fs.progress ++ (optStr sd.ct_code ++ "-" ++ String.mk la ++ ","
          ++ String.mk lo ++ "-" ++ hstr) ++ "\n" ∧
        fs2.failedLog = fs.failedLog) ∧
    (∀ (code err ts : String) (fs : JobFiles),
      save_failed_code code err ts fs =
        { fs with failedLog := fs.failedLog ++ (code ++ "|" ++ err ++ "|" ++ ts ++ "\n") }) := by
  constructor
  · intro r fs fs2 h
    rcases save_result_spec r fs with h1 | ⟨sd, hstr, la, lo, h2, h3, _, _, h5, h6⟩
    · rw [h1] at h
      simp at h
    · rw [h6] at h
      injection h with hb hfs
      refine ⟨sd, hstr, la, lo, h2, h3, h5, ?_, ?_, ?_⟩ <;> rw [← hfs]
  · intro code err ts fs
    rfl

/-- A result carrying a link with a `place/lat,lng` fragment. -/
def c7Result : ScrapeResult :=
  ⟨some ⟨some "t", some "https://maps/place/19.43,-99.13", none, some "01DPR0001A", true, none⟩,
    "01DPR0001A", 1, none⟩

theorem persist_formats_witness :
    ((save_result_incrementally c7Result emptyFiles).2).failedLog = emptyFiles.failedLog := by
  have heq : save_result_incrementally c7Result emptyFiles =
      (true, (save_result_incrementally c7Result emptyFiles).2) := by decide
  obtain ⟨sd, hstr, la, lo, _, _, _, _, _, hfl⟩ :=
    persist_formats.1 c7Result emptyFiles _ heq
  exact hfl

/-- C10: a result marked successful whose link is absent or contains no
`place/lat,lng` fragment (with decimal-pointed coordinates) is not saved:
`save_result_incrementally` returns `False` leaving every file unchanged, and
the processing loop appends the identifier to the failure log instead. -/
theorem failed_save_behavior (r : ScrapeResult) (sd : SchoolData) (st : JobState) (ts : String)
    (hsd : r.school_data = some sd) (hsucc : sd.success = true)
    (h : sd.href = none ∨ ∃ hstr, sd.href = some hstr ∧
      ¬ ∃ pre la lo post, hstr.data = pre ++ ('p' :: 'l' :: 'a' :: 'c' :: 'e' :: '/' ::
        (la ++ ',' :: (lo ++ post))) ∧ decDotLitB la = true ∧ decDotLitB lo = true) :
    save_result_incrementally r st.files = (false, st.files) ∧
    processItem ts st (BatchItem.res r) =
      { st with
        files := save_failed_code r.ct_code (pyOrStr r.last_error "Unknown error") ts st.files,
        failed_count := st.failed_count + 1,
        total_processed := st.total_processed + 1 } := by
  have hfalse : save_result_incrementally r st.files = (false, st.files) := by
    rcases save_result_spec r st.files with h1 | ⟨sd2, hstr2, la, lo, hsd2, hh2, _, _, hsp2, h6⟩
    · exact h1
    · exfalso
      rw [hsd] at hsd2
      injection hsd2 with hsd3
      rcases h with hnone | ⟨hstr, hhs, hno⟩
      · rw [← hsd3, hnone] at hh2
        exact Option.noConfusion hh2
      · rw [← hsd3, hhs] at hh2
        injection hh2 with hh3
        rw [← hh3] at hsp2
        obtain ⟨pre, post, he, hd1, hd2⟩ := searchPlace_sound _ _ _ hsp2
        exact hno ⟨pre, la, lo, post, he, hd1, hd2⟩
  exact ⟨hfalse, processItem_res_false ts st r (by rw [hfalse])⟩

/-- A successful-looking result with no link at all. -/
def c10Data : SchoolData := ⟨none, none, none, some "X9", true, some "Target element not found"⟩

def c10Result : ScrapeResult := ⟨some c10Data, "X9", 3, some "Target element not found"⟩

theorem failed_save_behavior_witness :
    save_result_incrementally c10Result emptyState.files = (false, emptyState.files) :=
  (failed_save_behavior c10Result c10Data emptyState "T" rfl rfl (Or.inl rfl)).1

/-! ### load_coordinates_data line parsing (streamlit_app.py lines 16-47)

`re.match(r'([^-]+)-(-?\d+\.?\d*),(-?\d+\.?\d*)', line)`: anchored at the
start of the line only; trailing content after the match is ignored.
Greediness is again deterministic: `[^-]+` is a maximal dash-free run that
must be followed by `'-'`, and each `\d+`/`\d*` is a maximal digit run whose
follower (`','`, `'.'` or the end of the pattern) is not a digit. -/

/-- Pattern `\d+\.?\d*` at the head of `cs`. -/
def matchDecOptCore (cs : List Char) : Option (List Char × List Char) :=
  if (cs.takeWhile Char.isDigit).isEmpty then none
  else
    match cs.dropWhile Char.isDigit with
    | c :: r2 =>
        if c = '.' then
          some (cs.takeWhile Char.isDigit ++ '.' :: r2.takeWhile Char.isDigit,
            r2.dropWhile Char.isDigit)
        else some (cs.takeWhile Char.isDigit, c :: r2)
    | [] => some (cs.takeWhile Char.isDigit, [])

/-- Pattern `-?\d+\.?\d*` at the head of `cs`. -/
def matchDecOpt (cs : List Char) : Option (List Char × List Char) :=
  match cs with
  | c :: rest =>
      if c = '-' then
        match matchDecOptCore rest with
        | some (g, r) => some ('-' :: g, r)
        | none => none
      else matchDecOptCore (c :: rest)
  | [] => matchDecOptCore []

/-- Python `re.match(r'([^-]+)-(-?\d+\.?\d*),(-?\d+\.?\d*)', line)`: the three
captured groups, or `none` when the pattern does not match a prefix of the
line. -/
def parseCoordLine (cs : List Char) : Option (List Char × List Char × List Char) :=
  if (cs.takeWhile (fun c => !(c == '-'))).isEmpty then none
  else
    match cs.dropWhile (fun c => !(c == '-')) with
    | c :: r1 =>
        if c = '-' then
          match matchDecOpt r1 with
          | some (lat, r2) =>
              match r2 with
              | c2 :: r3 =>
                  if c2 = ',' then
                    match matchDecOpt r3 with
                    | some (lng, _) =>
                        some (cs.takeWhile (fun c => !(c == '-')), lat, lng)
                    | none => none
                  else none
              | [] => none
          | none => none
        else none
    | [] => none

/-- Strings matched by `\d+\.?\d*` in full. -/
def decOptCoreB (cs : List Char) : Bool :=
  !(cs.takeWhile Char.isDigit).isEmpty &&
    (match cs.dropWhile Char.isDigit with
     | c :: r2 => (c == '.') && r2.all Char.isDigit
     | [] => true)

/-- Strings matched by `-?\d+\.?\d*` in full. -/
def decOptLitB (cs : List Char) : Bool :=
  match cs with
  | c :: rest => if c = '-' then decOptCoreB rest else decOptCoreB (c :: rest)
  | [] => decOptCoreB []

/-- Numeric value of a digit string. -/
def digitsVal (ds : List Char) : Nat :=
  ds.foldl (fun a c => 10 * a + (c.toNat - 48)) 0

/-- Value of an unsigned decimal literal (`float` of a matched group). -/
def ratOfDecCore (cs : List Char) : ℚ :=
  match cs.dropWhile Char.isDigit with
  | '.' :: r2 => (digitsVal (cs.takeWhile Char.isDigit) : ℚ)
      + (digitsVal r2 : ℚ) / (10 : ℚ) ^ r2.length
  | _ => (digitsVal (cs.takeWhile Char.isDigit) : ℚ)

/-- Value of an optionally signed decimal literal. -/
def ratOfDec (cs : List Char) : ℚ :=
  match cs with
  | '-' :: rest => -(ratOfDecCore rest)
  | _ => ratOfDecCore cs

/-- One line of `load_coordinates_data` (streamlit_app.py lines 23-36): strip
the line, skip it when blank, else apply the regex; on a match produce the
record (school_code, latitude, longitude). -/
def load_coordinates_line (line : String) : Option (String × ℚ × ℚ) :=
  if (pyStripChars line.data).isEmpty then none
  else
    match parseCoordLine (pyStripChars line.data) with
    | some (code, la, lo) => some (String.mk code, ratOfDec la, ratOfDec lo)
    | none => none

theorem matchDecOptCore_sound (cs g r : List Char) (h : matchDecOptCore cs = some (g, r)) :
    cs = g ++ r ∧ decOptCoreB g = true ∧ ∃ c gs, g = c :: gs ∧ Char.isDigit c = true := by
  have hallT : ∀ c ∈ cs.takeWhile Char.isDigit, Char.isDigit c = true :=
    fun c hc => mem_takeWhile_pred _ c hc
  unfold matchDecOptCore at h
  split at h
  · exact absurd h (by simp)
  · rename_i hd1
    have hhead : ∃ c gs, cs.takeWhile Char.isDigit = c :: gs ∧ Char.isDigit c = true := by
      cases hT : cs.takeWhile Char.isDigit with
      | nil => rw [hT] at hd1; simp at hd1
      | cons c T =>
          exact ⟨c, T, rfl, hallT c (by rw [hT]; exact List.mem_cons_self c T)⟩
    split at h
    · rename_i c2 r2 hr1
      by_cases hc2 : c2 = '.'
      · rw [if_pos hc2] at h
        subst hc2
        injection h with h2
        cases h2
        have hallD : ∀ c ∈ r2.takeWhile Char.isDigit, Char.isDigit c = true :=
          fun c hc => mem_takeWhile_pred _ c hc
        refine ⟨?_, ?_, ?_⟩
        · calc cs = cs.takeWhile Char.isDigit ++ cs.dropWhile Char.isDigit :=
                (List.takeWhile_append_dropWhile _ _).symm
            _ = cs.takeWhile Char.isDigit ++ ('.' :: r2) := by rw [hr1]
            _ = cs.takeWhile Char.isDigit ++
                ('.' :: (r2.takeWhile Char.isDigit ++ r2.dropWhile Char.isDigit)) := by
                rw [List.takeWhile_append_dropWhile]
            _ = (cs.takeWhile Char.isDigit ++ '.' :: r2.takeWhile Char.isDigit) ++
                r2.dropWhile Char.isDigit := by simp
        · have hspan := span_exact (p := Char.isDigit) (cs.takeWhile Char.isDigit)
            ('.' :: r2.takeWhile Char.isDigit) hallT
            (Or.inr ⟨'.', r2.takeWhile Char.isDigit, rfl, by decide⟩)
          unfold decOptCoreB
          rw [hspan.1, hspan.2]
          simp only [Bool.and_eq_true, Bool.not_eq_true']
          refine ⟨by simpa using hd1, rfl, ?_⟩
          exact List.all_eq_true.mpr hallD
        · obtain ⟨c, T, hT, hc⟩ := hhead
          exact ⟨c, T ++ '.' :: r2.takeWhile Char.isDigit, by simp [hT], hc⟩
      · rw [if_neg hc2] at h
        injection h with h2
        cases h2
        refine ⟨?_, ?_, hhead⟩
        · rw [← hr1]
          exact (List.takeWhile_append_dropWhile _ _).symm
        · have hspan := span_exact (p := Char.isDigit) (cs.takeWhile Char.isDigit) []
            hallT (Or.inl rfl)
          rw [List.append_nil] at hspan
          unfold decOptCoreB
          rw [hspan.1, hspan.2]
          simpa using hd1
    · rename_i hr1
      injection h with h2
      cases h2
      refine ⟨?_, ?_, hhead⟩
      · rw [List.append_nil]
        conv_lhs => rw [← List.takeWhile_append_dropWhile (p := Char.isDigit) (l := cs)]
        rw [hr1, List.append_nil]
      · have hspan := span_exact (p := Char.isDigit) (cs.takeWhile Char.isDigit) []
          hallT (Or.inl rfl)
        rw [List.append_nil] at hspan
        unfold decOptCoreB
        rw [hspan.1, hspan.2]
        simpa using hd1

theorem matchDecOpt_sound (cs g r : List Char) (h : matchDecOpt cs = some (g, r)) :
    cs = g ++ r ∧ decOptLitB g = true := by
  cases cs with
  | nil =>
      rw [show matchDecOpt ([] : List Char) = matchDecOptCore [] from rfl] at h
      obtain ⟨_, hb, c, gs, hg, _⟩ := matchDecOptCore_sound _ _ _ h
      rw [hg] at hb
      simp [decOptCoreB, List.takeWhile] at hb
      exact absurd h (by simp [matchDecOptCore, List.takeWhile])
  | cons c rest =>
      by_cases hc : c = '-'
      · subst hc
        simp only [matchDecOpt, if_pos rfl] at h
        cases hcore : matchDecOptCore rest with
        | none => rw [hcore] at h; exact Option.noConfusion h
        | some p =>
            obtain ⟨g1, r1⟩ := p
            rw [hcore] at h
            simp only at h
            injection h with h2
            cases h2
            obtain ⟨h1, h2b, _⟩ := matchDecOptCore_sound _ _ _ hcore
            refine ⟨by rw [h1]; rfl, ?_⟩
            simp only [decOptLitB, if_pos rfl]
            exact h2b
      · simp only [matchDecOpt, if_neg hc] at h
        obtain ⟨h1, h2, c0, gs, hg, hc0⟩ := matchDecOptCore_sound _ _ _ h
        refine ⟨h1, ?_⟩
        rw [hg]
        have hcne : c0 ≠ '-' := by
          intro hcon
          rw [hcon] at hc0
          exact absurd hc0 (by decide)
        simp only [decOptLitB, if_neg hcne]
        rw [← hg]
        exact h2

/-- A list is empty-or-headed by a non-digit that is not `'.'` — how a
matched numeric group may be followed. -/
def numFollower (rest : List Char) : Prop :=
  rest = [] ∨ ∃ c t, rest = c :: t ∧ Char.isDigit c = false ∧ c ≠ '.'

theorem matchDecOptCore_exact (g rest : List Char) (hg : decOptCoreB g = true)
    (hrest : numFollower rest) :
    matchDecOptCore (g ++ rest) = some (g, rest) := by
  unfold decOptCoreB at hg
  simp only [Bool.and_eq_true, Bool.not_eq_true'] at hg
  obtain ⟨hne, harms⟩ := hg
  have hallT : ∀ c ∈ g.takeWhile Char.isDigit, Char.isDigit c = true :=
    fun c hc => mem_takeWhile_pred _ c hc
  have hrest' : rest = [] ∨ ∃ c t, rest = c :: t ∧ Char.isDigit c = false := by
    rcases hrest with h0 | ⟨c, t, hct, hcd, _⟩
    · exact Or.inl h0
    · exact Or.inr ⟨c, t, hct, hcd⟩
  cases hdw : g.dropWhile Char.isDigit with
  | nil =>
      have hgt : g.takeWhile Char.isDigit = g := by
        conv_rhs => rw [← List.takeWhile_append_dropWhile (p := Char.isDigit) (l := g)]
        rw [hdw, List.append_nil]
      have hallg : ∀ c ∈ g, Char.isDigit c = true := by
        intro c hc
        exact hallT c (by rw [hgt]; exact hc)
      have hspan := span_exact (p := Char.isDigit) g rest hallg hrest'
      unfold matchDecOptCore
      rw [hspan.1, hspan.2]
      rw [if_neg (by rw [hgt] at hne; simp [hne])]
      rcases hrest with h0 | ⟨c, t, hct, hcd, hcdot⟩
      · rw [h0]
      · rw [hct]
        simp [hcdot]
  | cons c2 r2 =>
      rw [hdw] at harms
      simp only [Bool.and_eq_true, beq_iff_eq] at harms
      obtain ⟨hc2, hall2⟩ := harms
      subst hc2
      have hg2 : g = g.takeWhile Char.isDigit ++ '.' :: r2 := by
        conv_lhs => rw [← List.takeWhile_append_dropWhile (p := Char.isDigit) (l := g)]
        rw [hdw]
      have hall2' : ∀ c ∈ r2, Char.isDigit c = true := List.all_eq_true.mp hall2
      have hspan1 := span_exact (p := Char.isDigit) (g.takeWhile Char.isDigit)
        ('.' :: (r2 ++ rest)) hallT (Or.inr ⟨'.', r2 ++ rest, rfl, by decide⟩)
      have hspan2 := span_exact (p := Char.isDigit) r2 rest hall2' hrest'
      have hge : g ++ rest = g.takeWhile Char.isDigit ++ ('.' :: (r2 ++ rest)) := by
        conv_lhs => rw [hg2]
        simp
      unfold matchDecOptCore
      rw [hge, hspan1.1, hspan1.2]
      rw [if_neg (by simp [hne])]
      simp only [hspan2.1, hspan2.2]
      simp [← hg2]

theorem matchDecOpt_exact (g rest : List Char) (hg : decOptLitB g = true)
    (hrest : numFollower rest) :
    matchDecOpt (g ++ rest) = some (g, rest) := by
  cases g with
  | nil =>
      unfold decOptLitB decOptCoreB at hg
      simp [List.takeWhile] at hg
  | cons c g1 =>
      by_cases hc : c = '-'
      · subst hc
        simp only [decOptLitB, if_pos rfl] at hg
        show matchDecOpt ('-' :: (g1 ++ rest)) = _
        simp only [matchDecOpt, if_pos rfl]
        rw [matchDecOptCore_exact g1 rest hg hrest]
        simp
      · simp only [decOptLitB, if_neg hc] at hg
        show matchDecOpt (c :: (g1 ++ rest)) = _
        simp only [matchDecOpt, if_neg hc]
        exact matchDecOptCore_exact (c :: g1) rest hg hrest

theorem parseCoordLine_pos (code lat lng rest : List Char)
    (hcode : code ≠ []) (hdash : ∀ c ∈ code, c ≠ '-')
    (hlat : decOptLitB lat = true) (hlng : decOptLitB lng = true)
    (hrest : numFollower rest) :
    parseCoordLine (code ++ '-' :: (lat ++ ',' :: (lng ++ rest))) = some (code, lat, lng) := by
  have hall : ∀ c ∈ code, (fun c => !(c == '-')) c = true := by
    intro c hc
    simpa using hdash c hc
  have hspan := span_exact (p := fun c => !(c == '-')) code
    ('-' :: (lat ++ ',' :: (lng ++ rest))) hall
    (Or.inr ⟨'-', lat ++ ',' :: (lng ++ rest), rfl, by decide⟩)
  have hm1 : matchDecOpt (lat ++ ',' :: (lng ++ rest)) = some (lat, ',' :: (lng ++ rest)) :=
    matchDecOpt_exact lat (',' :: (lng ++ rest)) hlat
      (Or.inr ⟨',', lng ++ rest, rfl, by decide, by decide⟩)
  have hm2 : matchDecOpt (lng ++ rest) = some (lng, rest) :=
    matchDecOpt_exact lng rest hlng hrest
  unfold parseCoordLine
  rw [hspan.1, hspan.2]
  rw [if_neg (by simp [hcode])]
  simp [hm1, hm2]

theorem parseCoordLine_sound (cs : List Char) (out : List Char × List Char × List Char)
    (h : parseCoordLine cs = some out) :
    ∃ code lat lng rest, cs = code ++ '-' :: (lat ++ ',' :: (lng ++ rest)) ∧
      code ≠ [] ∧ (∀ c ∈ code, c ≠ '-') ∧ decOptLitB lat = true ∧ decOptLitB lng = true ∧
      out = (code, lat, lng) := by
  unfold parseCoordLine at h
  split at h
  · exact absurd h (by simp)
  · rename_i hd1
    split at h
    · rename_i c r1 hr1
      by_cases hc : c = '-'
      · rw [if_pos hc] at h
        subst hc
        cases hlat : matchDecOpt r1 with
        | none => rw [hlat] at h; exact Option.noConfusion h
        | some p =>
            obtain ⟨lat, r2⟩ := p
            rw [hlat] at h
            simp only at h
            cases r2 with
            | nil => exact Option.noConfusion h
            | cons c2 r3 =>
                simp only at h
                by_cases hc2 : c2 = ','
                · rw [if_pos hc2] at h
                  subst hc2
                  cases hlng : matchDecOpt r3 with
                  | none => rw [hlng] at h; exact Option.noConfusion h
                  | some q =>
                      obtain ⟨lng, r4⟩ := q
                      rw [hlng] at h
                      simp only at h
                      injection h with h2
                      obtain ⟨he1, hb1⟩ := matchDecOpt_sound _ _ _ hlat
                      obtain ⟨he2, hb2⟩ := matchDecOpt_sound _ _ _ hlng
                      refine ⟨cs.takeWhile (fun c => !(c == '-')), lat, lng, r4, ?_, ?_, ?_,
                        hb1, hb2, h2.symm⟩
                      · calc cs = cs.takeWhile (fun c => !(c == '-'))
                              ++ cs.dropWhile (fun c => !(c == '-')) :=
                              (List.takeWhile_append_dropWhile _ _).symm
                          _ = cs.takeWhile (fun c => !(c == '-')) ++ ('-' :: r1) := by rw [hr1]
                          _ = cs.takeWhile (fun c => !(c == '-'))
                              ++ ('-' :: (lat ++ ',' :: r3)) := by rw [he1]
                          _ = cs.takeWhile (fun c => !(c == '-'))
                              ++ ('-' :: (lat ++ ',' :: (lng ++ r4))) := by rw [he2]
                      · intro hcon
                        rw [hcon] at hd1
                        simp at hd1
                      · intro c hc
                        have := mem_takeWhile_pred _ c hc
                        simpa using this
                · rw [if_neg hc2] at h
                  exact Option.noConfusion h
      · rw [if_neg hc] at h
        exact Option.noConfusion h
    · exact absurd h (by simp)

/-- Executable rendering of the claim's "line of the form identifier-lat,lng
with lat and lng decimal numbers (optionally negative)", following the spec's
words: a non-empty dash-free identifier, a dash, then lat and lng — decimal
literals — filling the REST OF THE LINE exactly. -/
def specExactShapeB (cs : List Char) : Bool :=
  !(cs.takeWhile (fun c => !(c == '-'))).isEmpty &&
    (match cs.dropWhile (fun c => !(c == '-')) with
     | c :: r1 =>
         (c == '-') &&
           (match r1.dropWhile (fun c => !(c == ',')) with
            | c2 :: lng => (c2 == ',') &&
                decOptLitB (r1.takeWhile (fun c => !(c == ','))) && decOptLitB lng
            | [] => false)
     | [] => false)

/-- C8 (counterexample): the line `A-1.5,2.5-url` is NOT of the exact shape
identifier-lat,lng (it has a `-url` tail), yet the loader produces a record
from it: `re.match` only anchors the pattern at the start of the line and
ignores trailing content. -/
theorem coord_parse_cex :
    specExactShapeB ("A-1.5,2.5-url".data) = false ∧
    load_coordinates_line "A-1.5,2.5-url"
      = some (String.mk ['A'], ratOfDec ['1', '.', '5'], ratOfDec ['2', '.', '5']) := by
  constructor
  · decide
  · rfl

/-- C8 (amended): the loader produces the record (identifier, lat, lng) for
every stripped line with a PREFIX of the form identifier-lat,lng — identifier
non-empty and dash-free, lat and lng decimal literals (`-?\d+\.?\d*`), and
the following character, if any, neither a digit nor `'.'` — the trailing
content being ignored; and every record it produces arises from such a
prefix. -/
theorem coord_parse_amended (line : String) (htrim : pyStripChars line.data = line.data) :
    (∀ code lat lng rest, line.data = code ++ '-' :: (lat ++ ',' :: (lng ++ rest)) →
      code ≠ [] → (∀ c ∈ code, c ≠ '-') → decOptLitB lat = true → decOptLitB lng = true →
      numFollower rest →
      load_coordinates_line line = some (String.mk code, ratOfDec lat, ratOfDec lng)) ∧
    (∀ out, load_coordinates_line line = some out →
      ∃ code lat lng rest, line.data = code ++ '-' :: (lat ++ ',' :: (lng ++ rest)) ∧
        code ≠ [] ∧ (∀ c ∈ code, c ≠ '-') ∧ decOptLitB lat = true ∧ decOptLitB lng = true ∧
        out = (String.mk code, ratOfDec lat, ratOfDec lng)) := by
  constructor
  · intro code lat lng rest hdecomp hcode hdash hlat hlng hrest
    unfold load_coordinates_line
    rw [htrim]
    rw [if_neg (by rw [hdecomp]; simp [hcode])]
    rw [hdecomp, parseCoordLine_pos code lat lng rest hcode hdash hlat hlng hrest]
  · intro out h
    unfold load_coordinates_line at h
    rw [htrim] at h
    split at h
    · exact absurd h (by simp)
    · cases hp : parseCoordLine line.data with
      | none => rw [hp] at h; exact Option.noConfusion h
      | some tri =>
          obtain ⟨code, la, lo⟩ := tri
          rw [hp] at h
          simp only at h
          injection h with h2
          obtain ⟨code2, lat2, lng2, rest2, hdec, hc1, hc2, hb1, hb2, hout⟩ :=
            parseCoordLine_sound line.data (code, la, lo) hp
          refine ⟨code2, lat2, lng2, rest2, hdec, hc1, hc2, hb1, hb2, ?_⟩
          rw [← h2]
          injection hout with ho1 ho2
          injection ho2 with ho2 ho3
          rw [ho1, ho2, ho3]

theorem coord_parse_amended_witness :
    load_coordinates_line "A-19.43,-99.13-https://x"
      = some (String.mk ['A'], ratOfDec ['1', '9', '.', '4', '3'],
          ratOfDec ['-', '9', '9', '.', '1', '3']) := by
  have h := (coord_parse_amended "A-19.43,-99.13-https://x" (by decide)).1
  exact h ['A'] ['1', '9', '.', '4', '3'] ['-', '9', '9', '.', '1', '3']
    ['-', 'h', 't', 't', 'p', 's', ':', '/', '/', 'x']
    (by decide) (by decide) (by decide) (by decide) (by decide)
    (Or.inr ⟨'-', ['h', 't', 't', 'p', 's', ':', '/', '/', 'x'], rfl, by decide, by decide⟩)
